import Mathlib

/-!
Verification of the unicode-range partitioning and subsetting pipeline of
`optifuse` (`src/optifuse/font.py`), against its natural-language
specification.

The embedding models the planning pipeline over `Finset Nat` (a Python
`set` of codepoints), keeping the source's function names.  External
collaborators are abstracted:

* `fontTools` IO (`TTFont`, `Subsetter`, `font.save`) only produces the
  coverage set and artifact files; the coverage is a parameter, and the
  files are modelled by their path strings.
* the thread pool's completion order (`as_completed`) is a parameter
  `completion` — theorems quantify over all permutations of the task list;
* the success of each job's external subset/encode step is a parameter
  `ok` — `fut.result()` re-raises the first failure encountered, which
  the model renders as `Except.error`.
-/

/-- `MAX_CHUNK_SIZE` of font.py. -/
def MAX_CHUNK_SIZE : Nat := 300

/-- `MIN_CHUNK_SIZE` of font.py. -/
def MIN_CHUNK_SIZE : Nat := 128

/-- `LATIN_BLOCKS` of font.py. -/
def LATIN_BLOCKS : List (Nat × Nat) :=
  [(0x0020, 0x007E), (0x00A0, 0x00FF), (0x0100, 0x017F)]

/-- `HAN_BLOCKS` of font.py. -/
def HAN_BLOCKS : List (Nat × Nat) :=
  [(0x3400, 0x4DBF), (0x4E00, 0x9FFF), (0x20000, 0x2A6DF), (0x2A700, 0x2B73F),
   (0x2B740, 0x2B81F), (0x2B820, 0x2CEAF), (0x2CEB0, 0x2EBEF), (0x30000, 0x3134F)]

/-- The dataclass `UnicodeRange` of font.py.  `end` is a Lean keyword, so the
field is called `endCp`. -/
structure UnicodeRange where
  start : Nat
  endCp : Nat
  label : String
deriving DecidableEq

/-- Python's `f"\x7bn:04X\x7d"`: uppercase hexadecimal, zero-padded to at
least four digits. -/
def hex4 (n : Nat) : String :=
  let s := String.mk ((Nat.toDigits 16 n).map Char.toUpper)
  if s.length < 4 then String.mk (List.replicate (4 - s.length) '0') ++ s else s

/-- `UnicodeRange.to_css` of font.py. -/
def UnicodeRange.to_css (r : UnicodeRange) : String :=
  "U+" ++ hex4 r.start ++ "-" ++ hex4 r.endCp

/-- Modelled from the spec: `_is_private_or_invisible` of font.py consults the
external `unicodedata.category` table (the Unicode character database is not
part of src/); the spec says categories Cc, Cf, Cs, Co, Cn (control, format,
surrogate, private use, unassigned) are invisible.  We embed the
version-independent category intervals: the control blocks (Cc:
0x00-0x1F and 0x7F-0x9F), the surrogate block (Cs: 0xD800-0xDFFF), the
private-use areas (Co: 0xE000-0xF8FF and the two supplementary PUA planes),
and values beyond 0x10FFFF (Cn).  Every codepoint at which a claim evaluates
this function is decided by these fixed intervals. -/
def _is_private_or_invisible (cp : Nat) : Bool :=
  decide (cp ≤ 0x1F) || decide (0x7F ≤ cp ∧ cp ≤ 0x9F) ||
  decide (0xD800 ≤ cp ∧ cp ≤ 0xDFFF) ||
  decide (0xE000 ≤ cp ∧ cp ≤ 0xF8FF) ||
  decide (0xF0000 ≤ cp ∧ cp ≤ 0xFFFFD) ||
  decide (0x100000 ≤ cp ∧ cp ≤ 0x10FFFD) ||
  decide (0x10FFFF < cp)

/-- `_is_han` of font.py: membership in any of the `HAN_BLOCKS`. -/
def _is_han (cp : Nat) : Bool :=
  HAN_BLOCKS.any fun b => decide (b.1 ≤ cp) && decide (cp ≤ b.2)

/-- `_chunk_256` of font.py: group the coverage by aligned 256-codepoint
blocks (only the block starts matter for the emitted ranges), sorted
ascending. -/
def _chunk_256 (coverage : Finset Nat) : List UnicodeRange :=
  ((coverage.image fun cp => cp / 256 * 256).sort (· ≤ ·)).map fun bs =>
    ⟨bs, bs + 255, "u" ++ hex4 bs ++ "-" ++ hex4 (bs + 255)⟩

/-- One step of the greedy contiguous-run grouping loop shared by
`_partition_han_chunks` and `_partition_limited_chunks` (their loop bodies are
textually identical in font.py).  State: `(chunks, current)`. -/
def chunkStep (st : List (List Nat) × List Nat) (cp : Nat) : List (List Nat) × List Nat :=
  if st.2 = [] then (st.1, [cp])
  else if cp = st.2.getLastD 0 + 1 ∧ st.2.length < MAX_CHUNK_SIZE then (st.1, st.2 ++ [cp])
  else (st.1 ++ [st.2], [cp])

/-- The greedy contiguous-run grouping pass over the sorted codepoints,
followed by the final `if current: chunks.append(current)`. -/
def buildChunks (l : List Nat) : List (List Nat) :=
  let st := l.foldl chunkStep ([], [])
  if st.2 = [] then st.1 else st.1 ++ [st.2]

/-- The left-to-right small-group coalescing loop of font.py: a group below
`MIN_CHUNK_SIZE` absorbs following chunks while the combined size stays
within `MAX_CHUNK_SIZE`. -/
def mergeLoop : List Nat → List (List Nat) → List (List Nat)
  | group, [] => [group]
  | group, next :: rest =>
    if group.length < MIN_CHUNK_SIZE then
      if group.length + next.length ≤ MAX_CHUNK_SIZE then mergeLoop (group ++ next) rest
      else group :: mergeLoop next rest
    else group :: mergeLoop next rest

/-- The whole merging pass (`merged` in font.py). -/
def mergeChunks : List (List Nat) → List (List Nat)
  | [] => []
  | c :: cs => mergeLoop c cs

/-- Greedy grouping followed by coalescing: the common core of
`_partition_han_chunks` and `_partition_limited_chunks`. -/
def partitionCore (l : List Nat) : List (List Nat) := mergeChunks (buildChunks l)

/-- The range a final group is emitted as: `grp[0]`/`grp[-1]` with the given
label text.  Groups reaching this point are never empty, so the `headD`
and `getLastD` defaults are unreachable. -/
def rangeOfGroup (pfx : String) (grp : List Nat) : UnicodeRange :=
  ⟨grp.headD 0, grp.getLastD 0,
   pfx ++ "u" ++ hex4 (grp.headD 0) ++ "-" ++ hex4 (grp.getLastD 0)⟩

/-- `_partition_limited_chunks` of font.py. -/
def _partition_limited_chunks (cps : Finset Nat) (pfx : String) : List UnicodeRange :=
  if cps = ∅ then []
  else (partitionCore (cps.sort (· ≤ ·))).map (rangeOfGroup (pfx ++ "-"))

/-- `_partition_han_chunks` of font.py: textually the same algorithm as
`_partition_limited_chunks` with the label prefix fixed to `han-`. -/
def _partition_han_chunks (cps : Finset Nat) : List UnicodeRange :=
  if cps = ∅ then []
  else (partitionCore (cps.sort (· ≤ ·))).map (rangeOfGroup "han-")

/-- `_collect_in_blocks` of font.py: the coverage codepoints falling in any
of the given blocks. -/
def _collect_in_blocks (coverage : Finset Nat) (blocks : List (Nat × Nat)) : Finset Nat :=
  coverage.filter fun cp => (blocks.any fun b => decide (b.1 ≤ cp) && decide (cp ≤ b.2)) = true

/-- `_split_visible_sets` of font.py. -/
def _split_visible_sets (coverage : Finset Nat) : Finset Nat × Finset Nat :=
  let visible := coverage.filter fun cp => _is_private_or_invisible cp = false
  (visible, coverage \ visible)

/-- `_by256_with_visibility` of font.py. -/
def _by256_with_visibility (coverage : Finset Nat) : List UnicodeRange :=
  ((_chunk_256 (_split_visible_sets coverage).1).map fun r =>
    ⟨r.start, r.endCp, "vis-" ++ r.label⟩) ++
  ((_chunk_256 (_split_visible_sets coverage).2).map fun r =>
    ⟨r.start, r.endCp, "invis-" ++ r.label⟩)

/-- `latin_used` of `_auto_ranges`. -/
def autoLatinSet (coverage : Finset Nat) : Finset Nat :=
  _collect_in_blocks (_split_visible_sets coverage).1 LATIN_BLOCKS

/-- `han_used` of `_auto_ranges`: the Han codepoints of the remaining
visible set. -/
def autoHanSet (coverage : Finset Nat) : Finset Nat :=
  ((_split_visible_sets coverage).1 \ autoLatinSet coverage).filter fun cp => _is_han cp = true

/-- The visible codepoints remaining for the per-256 pass of `_auto_ranges`. -/
def autoRestSet (coverage : Finset Nat) : Finset Nat :=
  ((_split_visible_sets coverage).1 \ autoLatinSet coverage) \ autoHanSet coverage

/-- `_auto_ranges` of font.py: Latin chunks, then Han chunks, then per-256
visible, then per-256 invisible, each pass consuming what it used. -/
def _auto_ranges (coverage : Finset Nat) : List UnicodeRange :=
  _partition_limited_chunks (autoLatinSet coverage) "latin"
  ++ _partition_han_chunks (autoHanSet coverage)
  ++ ((_chunk_256 (autoRestSet coverage)).map fun r => ⟨r.start, r.endCp, "vis-" ++ r.label⟩)
  ++ ((_chunk_256 (_split_visible_sets coverage).2).map fun r =>
      ⟨r.start, r.endCp, "invis-" ++ r.label⟩)

/-- Python's `family.replace(' ', '-')` (single-character pattern). -/
def replaceSpaceDash (s : String) : String :=
  String.mk (s.data.map fun c => if c = ' ' then '-' else c)

/-- The strategy dispatch of `subset_and_convert` (font.py lines 300-305):
the partition plan for a coverage set and a strategy selector. -/
def planRanges (coverage : Finset Nat) (split_strategy : String) : List UnicodeRange :=
  if split_strategy = "none" then
    [⟨if h : coverage.Nonempty then coverage.min' h else 0,
      if h : coverage.Nonempty then coverage.max' h else 0xFFFF, "full"⟩]
  else if split_strategy = "by-256" then _by256_with_visibility coverage
  else _auto_ranges coverage

/-- The task-preparation loop of `subset_and_convert` (font.py lines
311-316): each range is paired with the codepoints of the full coverage
lying in its interval; ranges whose intersection is empty are dropped. -/
def prepareTasks (coverage : Finset Nat) (ranges : List UnicodeRange) :
    List (UnicodeRange × Finset Nat) :=
  ranges.filterMap fun ur =>
    let unicodes := coverage.filter fun cp => ur.start ≤ cp ∧ cp ≤ ur.endCp
    if unicodes = ∅ then none else some (ur, unicodes)

/-- `out_base.name` of `_process`: the artifact file stem for a range. -/
def outBaseName (fam : String) (ur : UnicodeRange) : String :=
  replaceSpaceDash fam ++ "-" ++ ur.label

/-- One `@font-face` block of `_emit_css` (the text appended per record). -/
def cssRule (family weight style stem : String) (urange : UnicodeRange) : String :=
  "@font-face \x7b\n" ++
  "  font-family: \x27" ++ family ++ "\x27;\n" ++
  "  font-style: " ++ style ++ ";\n" ++
  "  font-weight: " ++ weight ++ ";\n" ++
  "  font-display: swap;\n" ++
  "  src: url(\x27" ++ stem ++ ".woff2\x27) format(\x27woff2\x27), url(\x27" ++
    stem ++ ".woff\x27) format(\x27woff\x27);\n" ++
  "  unicode-range: " ++ urange.to_css ++ ";\n" ++
  "\x7d\n\n"

/-- The CSS file written by `_emit_css`: its path and the `@font-face`
blocks its text is the concatenation of. -/
structure CssOutput where
  path : String
  rules : List String
deriving DecidableEq

/-- `_emit_css` of font.py: writes one `@font-face` block per record, in
record order, to `dest_dir/family-with-hyphens.css`. -/
def _emit_css (dest_dir family weight style : String)
    (records : List (String × UnicodeRange)) : CssOutput :=
  ⟨dest_dir ++ "/" ++ replaceSpaceDash family ++ ".css",
   records.map fun rec => cssRule family weight style rec.1 rec.2⟩

/-- The `as_completed` collection loop of `subset_and_convert` (font.py lines
330-335).  `order` is the completion order of the pool's futures (any
permutation of the submitted tasks); `ok` says whether a job's external
subset/encode step succeeds.  Each successful job contributes its two
artifact paths (as written by `_save_as_woff_variants`) to `created` and its
`(out_base.name, range)` record to `css_records`; `fut.result()` re-raises
the first failure encountered, aborting the loop. -/
def collectJobs (dest_dir fam : String) (ok : UnicodeRange → Bool) :
    List (UnicodeRange × Finset Nat) →
      Except UnicodeRange (List String × List (String × UnicodeRange))
  | [] => .ok ([], [])
  | (ur, _) :: rest =>
    if ok ur then
      match collectJobs dest_dir fam ok rest with
      | .ok (created, recs) =>
          .ok ((dest_dir ++ "/" ++ outBaseName fam ur ++ ".woff2") ::
               (dest_dir ++ "/" ++ outBaseName fam ur ++ ".woff") :: created,
               (outBaseName fam ur, ur) :: recs)
      | .error e => .error e
    else .error ur

/-- `subset_and_convert` of font.py.  The font IO is abstracted: `coverage`
stands for `_font_coverage(base_font)` and `sourceStem` for `source.stem`.
`completion` is the thread pool's scheduling: the order in which
`as_completed` yields the submitted tasks (theorems assume it returns a
permutation of its input).  On success the result is the created path
list — the jobs' artifact paths in completion order followed by the CSS
path — together with the CSS file written; a failing job makes the whole
call raise. -/
def subset_and_convert (dest_dir : String) (coverage : Finset Nat)
    (family : Option String) (sourceStem weight style split_strategy : String)
    (completion : List (UnicodeRange × Finset Nat) → List (UnicodeRange × Finset Nat))
    (ok : UnicodeRange → Bool) :
    Except UnicodeRange (List String × CssOutput) :=
  let fam := family.getD sourceStem
  let ranges := planRanges coverage split_strategy
  let tasks := prepareTasks coverage ranges
  match collectJobs dest_dir fam ok (completion tasks) with
  | .error e => .error e
  | .ok (created, css_records) =>
      let css := _emit_css dest_dir fam weight style css_records
      .ok (created ++ [css.path], css)

/-- The number of coverage codepoints a range actually covers (the claims'
"actual codepoints": the codepoints of the input lying in `[start, end]`). -/
def coveredCount (cps : Finset Nat) (r : UnicodeRange) : Nat :=
  (cps.filter fun cp => r.start ≤ cp ∧ cp ≤ r.endCp).card

/-- The coalescing guarantee relating two consecutive emitted groups: the
first is large enough, or merging the two would overflow `MAX_CHUNK_SIZE`. -/
def mergeRel (a b : List Nat) : Prop :=
  MIN_CHUNK_SIZE ≤ a.length ∨ MAX_CHUNK_SIZE < a.length + b.length

/-! ### Generic helpers: sorted lists and `Finset.sort` evaluation -/

/-- A strictly sorted list with the right elements is the `Finset.sort` of the
set: lets concrete `Finset.sort` values be established by `decide`. -/
theorem sort_eq_of (s : Finset Nat) (l : List Nat) (hl : l.Sorted (· < ·))
    (h : l.toFinset = s) : s.sort (· ≤ ·) = l := by
  have hnd : l.Nodup := hl.nodup
  have hperm : (s.sort (· ≤ ·)).Perm l := by
    apply List.perm_of_nodup_nodup_toFinset_eq (s.sort_nodup _) hnd
    rw [Finset.sort_toFinset, h]
  exact List.eq_of_perm_of_sorted hperm (s.sort_sorted _) (hl.imp le_of_lt)

theorem headD_mem (g : List Nat) (hg : g ≠ []) : g.headD 0 ∈ g := by
  cases g with
  | nil => exact absurd rfl hg
  | cons a t => simp [List.headD]

theorem getLastD_mem (g : List Nat) (hg : g ≠ []) : g.getLastD 0 ∈ g := by
  rw [List.getLastD_eq_getLast? 0 g, List.getLast?_eq_getLast g hg]
  exact List.getLast_mem hg

theorem sorted_headD_le (g : List Nat) (hs : g.Sorted (· ≤ ·)) :
    ∀ y ∈ g, g.headD 0 ≤ y := by
  cases g with
  | nil => intro y hy; exact absurd hy (List.not_mem_nil y)
  | cons a t =>
    intro y hy
    rcases List.mem_cons.mp hy with rfl | hyt
    · simp [List.headD]
    · simpa [List.headD] using (List.sorted_cons.mp hs).1 y hyt

theorem sorted_le_getLastD (g : List Nat) (hs : g.Sorted (· ≤ ·)) :
    ∀ y ∈ g, y ≤ g.getLastD 0 := by
  induction g with
  | nil => intro y hy; exact absurd hy (List.not_mem_nil y)
  | cons a t ih =>
    intro y hy
    cases t with
    | nil =>
      rcases List.mem_cons.mp hy with rfl | h
      · simp [List.getLastD]
      · exact absurd h (List.not_mem_nil y)
    | cons b t' =>
      have hlast : (a :: b :: t').getLastD 0 = (b :: t').getLastD 0 := by
        rw [List.getLastD_eq_getLast? 0, List.getLastD_eq_getLast? 0,
          List.getLast?_cons_cons]
      rw [hlast]
      have hst := List.sorted_cons.mp hs
      rcases List.mem_cons.mp hy with rfl | hyt
      · exact le_trans (hst.1 b (by simp)) (ih hst.2 b (by simp))
      · exact ih hst.2 y hyt

/-- Filtering a sorted list to the interval spanned by one of its segments
recovers exactly that segment. -/
theorem filter_segment (pre g post : List Nat)
    (hs : (pre ++ g ++ post).Sorted (· < ·)) (hg : g ≠ []) :
    (pre ++ g ++ post).filter
      (fun cp => decide (g.headD 0 ≤ cp ∧ cp ≤ g.getLastD 0)) = g := by
  rw [List.append_assoc] at hs
  have h1 := List.pairwise_append.mp hs
  have h2 := List.pairwise_append.mp h1.2.1
  have hgle : g.Sorted (· ≤ ·) := h2.1.imp le_of_lt
  rw [List.filter_append, List.filter_append]
  have hpre : pre.filter (fun cp => decide (g.headD 0 ≤ cp ∧ cp ≤ g.getLastD 0)) = [] := by
    apply List.filter_eq_nil_iff.mpr
    intro x hx
    have hlt : x < g.headD 0 :=
      h1.2.2 x hx (g.headD 0) (List.mem_append_left _ (headD_mem g hg))
    simp only [decide_eq_true_eq, not_and]
    intro hle
    omega
  have hmid : g.filter (fun cp => decide (g.headD 0 ≤ cp ∧ cp ≤ g.getLastD 0)) = g := by
    apply List.filter_eq_self.mpr
    intro y hy
    simp only [decide_eq_true_eq]
    exact ⟨sorted_headD_le g hgle y hy, sorted_le_getLastD g hgle y hy⟩
  have hpost : post.filter (fun cp => decide (g.headD 0 ≤ cp ∧ cp ≤ g.getLastD 0)) = [] := by
    apply List.filter_eq_nil_iff.mpr
    intro z hz
    have hlt : g.getLastD 0 < z := h2.2.2 (g.getLastD 0) (getLastD_mem g hg) z hz
    simp only [decide_eq_true_eq, not_and]
    intro _
    omega
  rw [hpre, hmid, hpost, List.append_nil, List.nil_append]

/-- `coveredCount` through the sorted list of the coverage. -/
theorem coveredCount_eq_filter_length (cps : Finset Nat) (r : UnicodeRange) :
    coveredCount cps r =
      ((cps.sort (· ≤ ·)).filter fun cp => decide (r.start ≤ cp ∧ cp ≤ r.endCp)).length := by
  unfold coveredCount
  rw [← List.toFinset_card_of_nodup ((cps.sort_nodup _).filter _),
    List.toFinset_filter, Finset.sort_toFinset]
  congr 1
  apply Finset.filter_congr
  intro x _
  simp

/-! ### Invariants of the greedy grouping pass -/

theorem chunkStep_empty (st : List (List Nat) × List Nat) (cp : Nat) (h : st.2 = []) :
    chunkStep st cp = (st.1, [cp]) := by
  unfold chunkStep
  rw [if_pos h]

theorem chunkStep_extend (st : List (List Nat) × List Nat) (cp : Nat) (h0 : st.2 ≠ [])
    (hc : cp = st.2.getLastD 0 + 1 ∧ st.2.length < MAX_CHUNK_SIZE) :
    chunkStep st cp = (st.1, st.2 ++ [cp]) := by
  unfold chunkStep
  rw [if_neg h0, if_pos hc]

theorem chunkStep_break (st : List (List Nat) × List Nat) (cp : Nat) (h0 : st.2 ≠ [])
    (hc : ¬(cp = st.2.getLastD 0 + 1 ∧ st.2.length < MAX_CHUNK_SIZE)) :
    chunkStep st cp = (st.1 ++ [st.2], [cp]) := by
  unfold chunkStep
  rw [if_neg h0, if_neg hc]

theorem chunkStep_flatten (st : List (List Nat) × List Nat) (cp : Nat) :
    (chunkStep st cp).1.flatten ++ (chunkStep st cp).2 = st.1.flatten ++ st.2 ++ [cp] := by
  by_cases h0 : st.2 = []
  · rw [chunkStep_empty st cp h0, h0]
    simp
  · by_cases hc : cp = st.2.getLastD 0 + 1 ∧ st.2.length < MAX_CHUNK_SIZE
    · rw [chunkStep_extend st cp h0 hc]
      simp [List.append_assoc]
    · rw [chunkStep_break st cp h0 hc]
      simp [List.flatten_append, List.append_assoc]

theorem foldl_chunkStep_flatten (l : List Nat) (st : List (List Nat) × List Nat) :
    (l.foldl chunkStep st).1.flatten ++ (l.foldl chunkStep st).2 =
      st.1.flatten ++ st.2 ++ l := by
  induction l generalizing st with
  | nil => simp
  | cons cp rest ih =>
    rw [List.foldl_cons, ih, chunkStep_flatten]
    simp [List.append_assoc]

/-- The greedy pass loses and duplicates nothing: its groups concatenate back
to the input list. -/
theorem buildChunks_flatten (l : List Nat) : (buildChunks l).flatten = l := by
  unfold buildChunks
  have h := foldl_chunkStep_flatten l ([], [])
  by_cases he : (l.foldl chunkStep ([], [])).2 = []
  · rw [if_pos he]
    rw [he] at h
    simpa using h
  · rw [if_neg he]
    rw [List.flatten_append]
    simpa using h

/-- Every group the greedy pass keeps or is building is nonempty and at most
`MAX_CHUNK_SIZE` long. -/
theorem foldl_chunkStep_ok (l : List Nat) (st : List (List Nat) × List Nat)
    (h1 : ∀ c ∈ st.1, c ≠ [] ∧ c.length ≤ MAX_CHUNK_SIZE)
    (h2 : st.2.length ≤ MAX_CHUNK_SIZE) :
    (∀ c ∈ (l.foldl chunkStep st).1, c ≠ [] ∧ c.length ≤ MAX_CHUNK_SIZE) ∧
      (l.foldl chunkStep st).2.length ≤ MAX_CHUNK_SIZE := by
  induction l generalizing st with
  | nil => exact ⟨h1, h2⟩
  | cons cp rest ih =>
    rw [List.foldl_cons]
    by_cases h0 : st.2 = []
    · rw [chunkStep_empty st cp h0]
      apply ih
      · exact h1
      · show (1 : Nat) ≤ MAX_CHUNK_SIZE
        decide
    · by_cases hc : cp = st.2.getLastD 0 + 1 ∧ st.2.length < MAX_CHUNK_SIZE
      · rw [chunkStep_extend st cp h0 hc]
        apply ih
        · exact h1
        · simp only [List.length_append, List.length_singleton]
          omega
      · rw [chunkStep_break st cp h0 hc]
        apply ih
        · intro c hcm
          rcases List.mem_append.mp hcm with hcm | hcm
          · exact h1 c hcm
          · rw [List.mem_singleton] at hcm
            subst hcm
            exact ⟨h0, h2⟩
        · show (1 : Nat) ≤ MAX_CHUNK_SIZE
          decide

theorem buildChunks_ok (l : List Nat) :
    ∀ c ∈ buildChunks l, c ≠ [] ∧ c.length ≤ MAX_CHUNK_SIZE := by
  unfold buildChunks
  have h := foldl_chunkStep_ok l ([], [])
    (by intro c hc; exact absurd hc (List.not_mem_nil c))
    (by show (0 : Nat) ≤ MAX_CHUNK_SIZE; decide)
  by_cases he : (l.foldl chunkStep ([], [])).2 = []
  · rw [if_pos he]
    exact h.1
  · rw [if_neg he]
    intro c hc
    rcases List.mem_append.mp hc with hc | hc
    · exact h.1 c hc
    · rw [List.mem_singleton] at hc
      subst hc
      exact ⟨he, h.2⟩

/-! ### Invariants of the coalescing pass -/

theorem mergeLoop_flatten (cs : List (List Nat)) (g : List Nat) :
    (mergeLoop g cs).flatten = g ++ cs.flatten := by
  induction cs generalizing g with
  | nil => simp [mergeLoop]
  | cons next rest ih =>
    unfold mergeLoop
    by_cases hmin : g.length < MIN_CHUNK_SIZE
    · by_cases hfit : g.length + next.length ≤ MAX_CHUNK_SIZE
      · rw [if_pos hmin, if_pos hfit, ih (g ++ next)]
        simp [List.append_assoc]
      · rw [if_pos hmin, if_neg hfit, List.flatten_cons, ih next]
        simp [List.append_assoc]
    · rw [if_neg hmin, List.flatten_cons, ih next]
      simp [List.append_assoc]

theorem mergeLoop_ok (cs : List (List Nat)) (g : List Nat) (hg1 : g ≠ [])
    (hg2 : g.length ≤ MAX_CHUNK_SIZE)
    (hcs : ∀ c ∈ cs, c ≠ [] ∧ c.length ≤ MAX_CHUNK_SIZE) :
    ∀ m ∈ mergeLoop g cs, m ≠ [] ∧ m.length ≤ MAX_CHUNK_SIZE := by
  induction cs generalizing g with
  | nil =>
    intro m hm
    rw [mergeLoop, List.mem_singleton] at hm
    subst hm
    exact ⟨hg1, hg2⟩
  | cons next rest ih =>
    have hnext := hcs next (List.mem_cons_self next rest)
    have hrest : ∀ c ∈ rest, c ≠ [] ∧ c.length ≤ MAX_CHUNK_SIZE :=
      fun c hc => hcs c (List.mem_cons_of_mem next hc)
    intro m hm
    unfold mergeLoop at hm
    by_cases hmin : g.length < MIN_CHUNK_SIZE
    · by_cases hfit : g.length + next.length ≤ MAX_CHUNK_SIZE
      · rw [if_pos hmin, if_pos hfit] at hm
        refine ih (g ++ next) ?_ ?_ hrest m hm
        · intro habs
          rw [List.append_eq_nil] at habs
          exact hg1 habs.1
        · rw [List.length_append]
          omega
      · rw [if_pos hmin, if_neg hfit] at hm
        rcases List.mem_cons.mp hm with rfl | hm
        · exact ⟨hg1, hg2⟩
        · exact ih next hnext.1 hnext.2 hrest m hm
    · rw [if_neg hmin] at hm
      rcases List.mem_cons.mp hm with rfl | hm
      · exact ⟨hg1, hg2⟩
      · exact ih next hnext.1 hnext.2 hrest m hm

theorem mergeLoop_head (cs : List (List Nat)) (g : List Nat) :
    ∃ h t, mergeLoop g cs = h :: t ∧ g.length ≤ h.length := by
  induction cs generalizing g with
  | nil => exact ⟨g, [], rfl, le_refl _⟩
  | cons next rest ih =>
    unfold mergeLoop
    by_cases hmin : g.length < MIN_CHUNK_SIZE
    · by_cases hfit : g.length + next.length ≤ MAX_CHUNK_SIZE
      · rw [if_pos hmin, if_pos hfit]
        obtain ⟨h, t, heq, hlen⟩ := ih (g ++ next)
        refine ⟨h, t, heq, ?_⟩
        rw [List.length_append] at hlen
        omega
      · rw [if_pos hmin, if_neg hfit]
        exact ⟨g, mergeLoop next rest, rfl, le_refl _⟩
    · rw [if_neg hmin]
      exact ⟨g, mergeLoop next rest, rfl, le_refl _⟩

theorem mergeLoop_chain (cs : List (List Nat)) (g : List Nat) :
    List.Chain' mergeRel (mergeLoop g cs) := by
  induction cs generalizing g with
  | nil =>
    rw [mergeLoop]
    exact List.chain'_singleton g
  | cons next rest ih =>
    unfold mergeLoop
    by_cases hmin : g.length < MIN_CHUNK_SIZE
    · by_cases hfit : g.length + next.length ≤ MAX_CHUNK_SIZE
      · rw [if_pos hmin, if_pos hfit]
        exact ih (g ++ next)
      · rw [if_pos hmin, if_neg hfit]
        obtain ⟨h, t, heq, hlen⟩ := mergeLoop_head rest next
        rw [heq]
        apply List.chain'_cons'.mpr
        constructor
        · intro y hy
          rw [List.head?_cons, Option.mem_some_iff] at hy
          subst hy
          right
          omega
        · rw [← heq]
          exact ih next
    · rw [if_neg hmin]
      obtain ⟨h, t, heq, hlen⟩ := mergeLoop_head rest next
      rw [heq]
      apply List.chain'_cons'.mpr
      constructor
      · intro y hy
        left
        omega
      · rw [← heq]
        exact ih next

/-! ### The combined partition core -/

theorem partitionCore_flatten (l : List Nat) : (partitionCore l).flatten = l := by
  unfold partitionCore
  cases h : buildChunks l with
  | nil =>
    have := buildChunks_flatten l
    rw [h] at this
    rw [mergeChunks]
    exact this
  | cons c cs =>
    have := buildChunks_flatten l
    rw [h] at this
    rw [mergeChunks, mergeLoop_flatten]
    rw [List.flatten_cons] at this
    exact this

theorem partitionCore_ok (l : List Nat) :
    ∀ m ∈ partitionCore l, m ≠ [] ∧ m.length ≤ MAX_CHUNK_SIZE := by
  unfold partitionCore
  cases h : buildChunks l with
  | nil =>
    rw [mergeChunks]
    intro m hm
    exact absurd hm (List.not_mem_nil m)
  | cons c cs =>
    have hok := buildChunks_ok l
    rw [h] at hok
    have hc := hok c (List.mem_cons_self c cs)
    rw [mergeChunks]
    exact mergeLoop_ok cs c hc.1 hc.2 fun x hx => hok x (List.mem_cons_of_mem c hx)

theorem partitionCore_chain (l : List Nat) : List.Chain' mergeRel (partitionCore l) := by
  unfold partitionCore
  cases h : buildChunks l with
  | nil =>
    rw [mergeChunks]
    exact List.chain'_nil
  | cons c cs =>
    rw [mergeChunks]
    exact mergeLoop_chain cs c

theorem partitionCore_split (l g : List Nat) (hg : g ∈ partitionCore l) :
    ∃ pre post, l = pre ++ g ++ post := by
  obtain ⟨L1, L2, hL⟩ := List.append_of_mem hg
  refine ⟨L1.flatten, L2.flatten, ?_⟩
  have h := partitionCore_flatten l
  rw [hL, List.flatten_append, List.flatten_cons] at h
  rw [← h, List.append_assoc]

/-- The codepoints of the coverage falling in an emitted group's interval are
exactly the group: the group's range covers `g.length` input codepoints. -/
theorem coveredCount_group (cps : Finset Nat) (g : List Nat)
    (hg : g ∈ partitionCore (cps.sort (· ≤ ·))) (pfx : String) :
    coveredCount cps (rangeOfGroup pfx g) = g.length := by
  have hne : g ≠ [] := (partitionCore_ok _ g hg).1
  obtain ⟨pre, post, hsplit⟩ := partitionCore_split _ g hg
  have hsorted : (pre ++ g ++ post).Sorted (· < ·) := by
    rw [← hsplit]
    exact Finset.sort_sorted_lt cps
  have hseg := filter_segment pre g post hsorted hne
  rw [coveredCount_eq_filter_length]
  show ((cps.sort (· ≤ ·)).filter fun cp =>
    decide (g.headD 0 ≤ cp ∧ cp ≤ g.getLastD 0)).length = g.length
  rw [hsplit, hseg]

theorem mapped_covered_le (cps : Finset Nat) (pfx : String) :
    ∀ r ∈ (partitionCore (cps.sort (· ≤ ·))).map (rangeOfGroup pfx),
      coveredCount cps r ≤ MAX_CHUNK_SIZE := by
  intro r hr
  obtain ⟨g, hgmem, rfl⟩ := List.mem_map.mp hr
  rw [coveredCount_group cps g hgmem]
  exact (partitionCore_ok _ g hgmem).2

theorem mapped_chain (cps : Finset Nat) (pfx : String) :
    ∀ (i : Nat) (hi : i + 1 < ((partitionCore (cps.sort (· ≤ ·))).map (rangeOfGroup pfx)).length),
      MIN_CHUNK_SIZE ≤ coveredCount cps
          (((partitionCore (cps.sort (· ≤ ·))).map (rangeOfGroup pfx)).get ⟨i, by omega⟩)
      ∨ MAX_CHUNK_SIZE < coveredCount cps
          (((partitionCore (cps.sort (· ≤ ·))).map (rangeOfGroup pfx)).get ⟨i, by omega⟩)
        + coveredCount cps
          (((partitionCore (cps.sort (· ≤ ·))).map (rangeOfGroup pfx)).get ⟨i + 1, hi⟩) := by
  intro i hi
  have hlen : ((partitionCore (cps.sort (· ≤ ·))).map (rangeOfGroup pfx)).length =
      (partitionCore (cps.sort (· ≤ ·))).length := List.length_map _ _
  have hchain := List.chain'_iff_get.mp (partitionCore_chain (cps.sort (· ≤ ·)))
  have hrel := hchain i (by omega)
  have hi1 : i < (partitionCore (cps.sort (· ≤ ·))).length := by omega
  have hi2 : i + 1 < (partitionCore (cps.sort (· ≤ ·))).length := by omega
  have hget1 : ((partitionCore (cps.sort (· ≤ ·))).map (rangeOfGroup pfx)).get ⟨i, by omega⟩ =
      rangeOfGroup pfx ((partitionCore (cps.sort (· ≤ ·))).get ⟨i, hi1⟩) := by
    simp [List.get_eq_getElem, List.getElem_map]
  have hget2 : ((partitionCore (cps.sort (· ≤ ·))).map (rangeOfGroup pfx)).get ⟨i + 1, hi⟩ =
      rangeOfGroup pfx ((partitionCore (cps.sort (· ≤ ·))).get ⟨i + 1, hi2⟩) := by
    simp [List.get_eq_getElem, List.getElem_map]
  rw [hget1, hget2,
    coveredCount_group cps _ (List.get_mem _ i hi1),
    coveredCount_group cps _ (List.get_mem _ (i + 1) hi2)]
  exact hrel

theorem range'_toFinset_ne_empty : (List.range' 0x4E00 301).toFinset ≠ ∅ := by
  intro h
  have h2 : (0x4E00 : Nat) ∈ (List.range' 0x4E00 301).toFinset := by
    rw [List.mem_toFinset, List.mem_range']
    exact ⟨0, by omega, by omega⟩
  rw [h] at h2
  exact absurd h2 (Finset.not_mem_empty _)

theorem range'_sort :
    ((List.range' 0x4E00 301).toFinset).sort (· ≤ ·) = List.range' 0x4E00 301 :=
  sort_eq_of _ _ (List.pairwise_lt_range' _ _) rfl

set_option maxRecDepth 100000 in
theorem range'_partitionCore :
    partitionCore (List.range' 0x4E00 301) = [List.range' 0x4E00 300, [0x4F2C]] := by
  decide

/-- C4: every range emitted by the limited/Han chunking covers at most
`MAX_CHUNK_SIZE` = 300 codepoints of the input, and an emitted range covering
fewer than `MIN_CHUNK_SIZE` = 128 is either the last one or merging it with
the next range would exceed 300; a contiguous run of exactly 301 codepoints
starting at 0x4E00 yields two ranges covering 300 and 1 input codepoints. -/
theorem C4_partitioner_size_bounds (cps : Finset Nat) (pfx : String) :
    (∀ r ∈ _partition_limited_chunks cps pfx, coveredCount cps r ≤ MAX_CHUNK_SIZE)
    ∧ (∀ (i : Nat) (hi : i + 1 < (_partition_limited_chunks cps pfx).length),
        MIN_CHUNK_SIZE ≤ coveredCount cps ((_partition_limited_chunks cps pfx).get ⟨i, by omega⟩)
        ∨ MAX_CHUNK_SIZE < coveredCount cps ((_partition_limited_chunks cps pfx).get ⟨i, by omega⟩)
          + coveredCount cps ((_partition_limited_chunks cps pfx).get ⟨i + 1, hi⟩))
    ∧ (∀ r ∈ _partition_han_chunks cps, coveredCount cps r ≤ MAX_CHUNK_SIZE)
    ∧ (∀ (i : Nat) (hi : i + 1 < (_partition_han_chunks cps).length),
        MIN_CHUNK_SIZE ≤ coveredCount cps ((_partition_han_chunks cps).get ⟨i, by omega⟩)
        ∨ MAX_CHUNK_SIZE < coveredCount cps ((_partition_han_chunks cps).get ⟨i, by omega⟩)
          + coveredCount cps ((_partition_han_chunks cps).get ⟨i + 1, hi⟩))
    ∧ (∃ r₁ r₂, _partition_limited_chunks (List.range' 0x4E00 301).toFinset pfx = [r₁, r₂]
        ∧ coveredCount (List.range' 0x4E00 301).toFinset r₁ = 300
        ∧ coveredCount (List.range' 0x4E00 301).toFinset r₂ = 1) := by
  have hlim : _partition_limited_chunks cps pfx =
      if cps = ∅ then []
      else (partitionCore (cps.sort (· ≤ ·))).map (rangeOfGroup (pfx ++ "-")) := rfl
  have hhan : _partition_han_chunks cps =
      if cps = ∅ then []
      else (partitionCore (cps.sort (· ≤ ·))).map (rangeOfGroup "han-") := rfl
  refine ⟨?_, ?_, ?_, ?_, ?_⟩
  · intro r hr
    rw [hlim] at hr
    by_cases hne : cps = ∅
    · rw [if_pos hne] at hr
      exact absurd hr (List.not_mem_nil r)
    · rw [if_neg hne] at hr
      exact mapped_covered_le cps (pfx ++ "-") r hr
  · intro i hi
    by_cases hne : cps = ∅
    · rw [hlim, if_pos hne] at hi
      simp at hi
    · have hrw : _partition_limited_chunks cps pfx =
          (partitionCore (cps.sort (· ≤ ·))).map (rangeOfGroup (pfx ++ "-")) := by
        rw [hlim, if_neg hne]
      revert hi
      rw [hrw]
      intro hi
      exact mapped_chain cps (pfx ++ "-") i hi
  · intro r hr
    rw [hhan] at hr
    by_cases hne : cps = ∅
    · rw [if_pos hne] at hr
      exact absurd hr (List.not_mem_nil r)
    · rw [if_neg hne] at hr
      exact mapped_covered_le cps "han-" r hr
  · intro i hi
    by_cases hne : cps = ∅
    · rw [hhan, if_pos hne] at hi
      simp at hi
    · have hrw : _partition_han_chunks cps =
          (partitionCore (cps.sort (· ≤ ·))).map (rangeOfGroup "han-") := by
        rw [hhan, if_neg hne]
      revert hi
      rw [hrw]
      intro hi
      exact mapped_chain cps "han-" i hi
  · refine ⟨rangeOfGroup (pfx ++ "-") (List.range' 0x4E00 300),
      rangeOfGroup (pfx ++ "-") [0x4F2C], ?_, ?_, ?_⟩
    · unfold _partition_limited_chunks
      rw [if_neg range'_toFinset_ne_empty, range'_sort, range'_partitionCore]
      rfl
    · have hmem : List.range' 0x4E00 300 ∈
          partitionCore (((List.range' 0x4E00 301).toFinset).sort (· ≤ ·)) := by
        rw [range'_sort, range'_partitionCore]
        exact List.mem_cons_self _ _
      rw [coveredCount_group _ _ hmem]
      simp [List.length_range']
    · have hmem : [0x4F2C] ∈
          partitionCore (((List.range' 0x4E00 301).toFinset).sort (· ≤ ·)) := by
        rw [range'_sort, range'_partitionCore]
        exact List.mem_cons_of_mem _ (List.mem_cons_self _ _)
      rw [coveredCount_group _ _ hmem]
      rfl

/-- C6: the ChunkPartitioner's edge cases: empty input gives no ranges; a
single codepoint gives one range of covered size 1 even though 1 is below
`MIN_CHUNK_SIZE`; the coverage with 0x41-0x43 and 0x46 gives exactly one
range spanning 0x41 to 0x46. -/
theorem C6_partitioner_edge_cases (c : Nat) (pfx : String) :
    _partition_limited_chunks ∅ pfx = []
    ∧ _partition_limited_chunks {c} pfx =
        [⟨c, c, pfx ++ "-" ++ "u" ++ hex4 c ++ "-" ++ hex4 c⟩]
    ∧ coveredCount {c} ⟨c, c, pfx ++ "-" ++ "u" ++ hex4 c ++ "-" ++ hex4 c⟩ = 1
    ∧ _partition_limited_chunks {0x41, 0x42, 0x43, 0x46} "latin" =
        [⟨0x41, 0x46, "latin-u0041-0046"⟩] := by
  refine ⟨?_, ?_, ?_, ?_⟩
  · unfold _partition_limited_chunks
    rw [if_pos rfl]
  · unfold _partition_limited_chunks
    rw [if_neg (Finset.singleton_ne_empty c), Finset.sort_singleton]
    rfl
  · unfold coveredCount
    rw [Finset.filter_singleton, if_pos ⟨le_refl c, le_refl c⟩, Finset.card_singleton]
  · unfold _partition_limited_chunks
    rw [if_neg (by decide),
      sort_eq_of ({0x41, 0x42, 0x43, 0x46} : Finset Nat) [0x41, 0x42, 0x43, 0x46]
        (by decide) (by decide)]
    decide

/-- C7: the `none` strategy always yields exactly one range labeled `full`:
for non-empty coverage it spans the coverage's minimum to its maximum
(so coverage 0x41, 0x5A, 0x7A gives the single range 0x41-0x7A); for empty
coverage it is the range 0x0000-0xFFFF. -/
theorem C7_none_strategy (coverage : Finset Nat) (h : coverage.Nonempty) :
    planRanges coverage "none" = [⟨coverage.min' h, coverage.max' h, "full"⟩]
    ∧ planRanges (∅ : Finset Nat) "none" = [⟨0, 0xFFFF, "full"⟩]
    ∧ planRanges ({0x41, 0x5A, 0x7A} : Finset Nat) "none" = [⟨0x41, 0x7A, "full"⟩] := by
  refine ⟨?_, ?_, ?_⟩
  · unfold planRanges
    rw [if_pos rfl, dif_pos h, dif_pos h]
  · unfold planRanges
    rw [if_pos rfl, dif_neg (by simp), dif_neg (by simp)]
  · unfold planRanges
    rw [if_pos rfl]
    have hne : ({0x41, 0x5A, 0x7A} : Finset Nat).Nonempty := ⟨0x41, by decide⟩
    rw [dif_pos hne, dif_pos hne]
    have hmin : ({0x41, 0x5A, 0x7A} : Finset Nat).min' hne = 0x41 := by
      apply le_antisymm
      · exact Finset.min'_le _ _ (by decide)
      · apply Finset.le_min'
        intro y hy
        fin_cases hy <;> omega
    have hmax : ({0x41, 0x5A, 0x7A} : Finset Nat).max' hne = 0x7A := by
      apply le_antisymm
      · apply Finset.max'_le
        intro y hy
        fin_cases hy <;> omega
      · exact Finset.le_max' _ _ (by decide)
    rw [hmin, hmax]

/-- C7 witness: the theorem applied to the concrete coverage of the spec's
example. -/
theorem C7_none_strategy_witness :
    planRanges ({0x41, 0x5A, 0x7A} : Finset Nat) "none" =
      [⟨({0x41, 0x5A, 0x7A} : Finset Nat).min' ⟨0x41, by decide⟩,
        ({0x41, 0x5A, 0x7A} : Finset Nat).max' ⟨0x41, by decide⟩, "full"⟩]
    ∧ planRanges (∅ : Finset Nat) "none" = [⟨0, 0xFFFF, "full"⟩]
    ∧ planRanges ({0x41, 0x5A, 0x7A} : Finset Nat) "none" = [⟨0x41, 0x7A, "full"⟩] :=
  C7_none_strategy ({0x41, 0x5A, 0x7A} : Finset Nat) ⟨0x41, by decide⟩

/-- C9: planning is deterministic: it depends only on the coverage set and
the strategy selector, not on the order the coverage happens to be
enumerated in, so two runs over identical coverage produce identical plans
(same ranges, same labels, same order). -/
theorem C9_planning_deterministic (l₁ l₂ : List Nat) (strategy : String)
    (h : l₁.Perm l₂) :
    planRanges l₁.toFinset strategy = planRanges l₂.toFinset strategy := by
  have heq : l₁.toFinset = l₂.toFinset := by
    ext a
    simp [List.mem_toFinset, h.mem_iff]
  rw [heq]

/-- C9 witness: two enumeration orders of the same two-codepoint coverage. -/
theorem C9_planning_deterministic_witness :
    planRanges [0x41, 0x7F].toFinset "auto" = planRanges [0x7F, 0x41].toFinset "auto" :=
  C9_planning_deterministic [0x41, 0x7F] [0x7F, 0x41] "auto" (by decide)

/-! ### Pipeline lemmas -/

theorem collectJobs_cons (dest_dir fam : String) (ok : UnicodeRange → Bool)
    (ur : UnicodeRange) (s : Finset Nat) (rest : List (UnicodeRange × Finset Nat)) :
    collectJobs dest_dir fam ok ((ur, s) :: rest) =
      if ok ur then
        match collectJobs dest_dir fam ok rest with
        | .ok (created, recs) =>
            .ok ((dest_dir ++ "/" ++ outBaseName fam ur ++ ".woff2") ::
                 (dest_dir ++ "/" ++ outBaseName fam ur ++ ".woff") :: created,
                 (outBaseName fam ur, ur) :: recs)
        | .error e => .error e
      else .error ur := rfl

/-- When every scheduled job succeeds, the collection loop returns the jobs'
records in completion order. -/
theorem collectJobs_all_ok (dest_dir fam : String) (ok : UnicodeRange → Bool) :
    ∀ order : List (UnicodeRange × Finset Nat), (∀ t ∈ order, ok t.1 = true) →
      ∃ created, collectJobs dest_dir fam ok order =
        .ok (created, order.map fun t => (outBaseName fam t.1, t.1)) := by
  intro order
  induction order with
  | nil => intro _; exact ⟨[], rfl⟩
  | cons t rest ih =>
    intro h
    obtain ⟨created, hc⟩ := ih fun x hx => h x (List.mem_cons_of_mem _ hx)
    obtain ⟨ur, s⟩ := t
    refine ⟨(dest_dir ++ "/" ++ outBaseName fam ur ++ ".woff2") ::
      (dest_dir ++ "/" ++ outBaseName fam ur ++ ".woff") :: created, ?_⟩
    rw [collectJobs_cons, if_pos (h (ur, s) (List.mem_cons_self _ _)), hc]
    rfl

/-- A failing job anywhere in the completion order makes the collection loop
raise. -/
theorem collectJobs_fail (dest_dir fam : String) (ok : UnicodeRange → Bool) :
    ∀ order : List (UnicodeRange × Finset Nat), (∃ t ∈ order, ok t.1 = false) →
      ∃ e, collectJobs dest_dir fam ok order = .error e := by
  intro order
  induction order with
  | nil =>
    intro h
    obtain ⟨t, ht, _⟩ := h
    exact absurd ht (List.not_mem_nil t)
  | cons t rest ih =>
    intro h
    obtain ⟨ur, s⟩ := t
    by_cases hok : ok ur = true
    · obtain ⟨t', ht', hfalse⟩ := h
      rcases List.mem_cons.mp ht' with rfl | ht'
      · rw [hok] at hfalse
        exact absurd hfalse (by decide)
      · obtain ⟨e, he⟩ := ih ⟨t', ht', hfalse⟩
        refine ⟨e, ?_⟩
        rw [collectJobs_cons, if_pos hok, he]
    · exact ⟨ur, by rw [collectJobs_cons, if_neg hok]⟩

theorem subset_and_convert_eq (dest_dir : String) (coverage : Finset Nat)
    (family : Option String) (sourceStem weight style split_strategy : String)
    (completion : List (UnicodeRange × Finset Nat) → List (UnicodeRange × Finset Nat))
    (ok : UnicodeRange → Bool) :
    subset_and_convert dest_dir coverage family sourceStem weight style split_strategy
        completion ok =
      match collectJobs dest_dir (family.getD sourceStem) ok
          (completion (prepareTasks coverage (planRanges coverage split_strategy))) with
      | .error e => .error e
      | .ok (created, css_records) =>
          .ok (created ++
                [(_emit_css dest_dir (family.getD sourceStem) weight style css_records).path],
               _emit_css dest_dir (family.getD sourceStem) weight style css_records) := rfl

theorem prepareTasks_empty (rs : List UnicodeRange) : prepareTasks ∅ rs = [] := by
  unfold prepareTasks
  induction rs with
  | nil => rfl
  | cons r rest ih =>
    rw [List.filterMap_cons]
    simp only [Finset.filter_empty, if_pos rfl]
    exact ih

theorem chunk_256_empty : _chunk_256 ∅ = [] := by
  unfold _chunk_256
  rw [Finset.image_empty, Finset.sort_empty]
  rfl

/-- C5: the auto strategy's output is the concatenation, in this order, of
the Latin-pass chunks, the Han-pass chunks, the per-256 visible remainder
with `vis-` prefix, and the per-256 invisible codepoints with `invis-`
prefix; the four pass input sets are pairwise disjoint and their union is
the whole coverage. -/
theorem C5_auto_pass_structure (coverage : Finset Nat) :
    _auto_ranges coverage =
        _partition_limited_chunks (autoLatinSet coverage) "latin"
        ++ _partition_han_chunks (autoHanSet coverage)
        ++ ((_chunk_256 (autoRestSet coverage)).map fun r =>
            ⟨r.start, r.endCp, "vis-" ++ r.label⟩)
        ++ ((_chunk_256 (_split_visible_sets coverage).2).map fun r =>
            ⟨r.start, r.endCp, "invis-" ++ r.label⟩)
    ∧ Disjoint (autoLatinSet coverage) (autoHanSet coverage)
    ∧ Disjoint (autoLatinSet coverage) (autoRestSet coverage)
    ∧ Disjoint (autoLatinSet coverage) ((_split_visible_sets coverage).2)
    ∧ Disjoint (autoHanSet coverage) (autoRestSet coverage)
    ∧ Disjoint (autoHanSet coverage) ((_split_visible_sets coverage).2)
    ∧ Disjoint (autoRestSet coverage) ((_split_visible_sets coverage).2)
    ∧ autoLatinSet coverage ∪ autoHanSet coverage ∪ autoRestSet coverage
        ∪ (_split_visible_sets coverage).2 = coverage := by
  have hAV : autoLatinSet coverage ⊆ (_split_visible_sets coverage).1 :=
    Finset.filter_subset _ _
  have hBrem : autoHanSet coverage ⊆
      (_split_visible_sets coverage).1 \ autoLatinSet coverage :=
    Finset.filter_subset _ _
  have hCrem : autoRestSet coverage ⊆
      (_split_visible_sets coverage).1 \ autoLatinSet coverage :=
    Finset.sdiff_subset
  have hBV : autoHanSet coverage ⊆ (_split_visible_sets coverage).1 :=
    hBrem.trans Finset.sdiff_subset
  have hCV : autoRestSet coverage ⊆ (_split_visible_sets coverage).1 :=
    hCrem.trans Finset.sdiff_subset
  have hVcov : (_split_visible_sets coverage).1 ⊆ coverage := Finset.filter_subset _ _
  have hVD : Disjoint ((_split_visible_sets coverage).1) ((_split_visible_sets coverage).2) :=
    Finset.disjoint_sdiff
  have hremA : Disjoint (autoLatinSet coverage)
      ((_split_visible_sets coverage).1 \ autoLatinSet coverage) :=
    Finset.disjoint_sdiff
  refine ⟨rfl, ?_, ?_, ?_, ?_, ?_, ?_, ?_⟩
  · exact hremA.mono_right hBrem
  · exact hremA.mono_right hCrem
  · exact hVD.mono_left hAV
  · exact Finset.disjoint_sdiff
  · exact hVD.mono_left hBV
  · exact hVD.mono_left hCV
  · have h1 : autoHanSet coverage ∪ autoRestSet coverage =
        (_split_visible_sets coverage).1 \ autoLatinSet coverage :=
      Finset.union_sdiff_of_subset hBrem
    have h2 : autoLatinSet coverage ∪
        ((_split_visible_sets coverage).1 \ autoLatinSet coverage) =
        (_split_visible_sets coverage).1 :=
      Finset.union_sdiff_of_subset hAV
    have h3 : (_split_visible_sets coverage).1 ∪ (_split_visible_sets coverage).2 =
        coverage :=
      Finset.union_sdiff_of_subset hVcov
    calc autoLatinSet coverage ∪ autoHanSet coverage ∪ autoRestSet coverage
          ∪ (_split_visible_sets coverage).2
        = autoLatinSet coverage ∪ (autoHanSet coverage ∪ autoRestSet coverage)
          ∪ (_split_visible_sets coverage).2 := by
          rw [Finset.union_assoc (autoLatinSet coverage)]
      _ = (_split_visible_sets coverage).1 ∪ (_split_visible_sets coverage).2 := by
          rw [h1, h2]
      _ = coverage := h3

/-- C10: every successful call of `subset_and_convert` returns a non-empty
path list whose last element is the CSS file's path, which is the family
name with spaces replaced by hyphens plus `.css` inside the destination
directory. -/
theorem C10_css_path_last (dest_dir : String) (coverage : Finset Nat)
    (family : Option String) (sourceStem weight style split_strategy : String)
    (completion : List (UnicodeRange × Finset Nat) → List (UnicodeRange × Finset Nat))
    (ok : UnicodeRange → Bool) (out : List String × CssOutput)
    (h : subset_and_convert dest_dir coverage family sourceStem weight style
        split_strategy completion ok = .ok out) :
    out.1 ≠ []
    ∧ out.1.getLast? = some out.2.path
    ∧ out.2.path = dest_dir ++ "/" ++ replaceSpaceDash (family.getD sourceStem) ++ ".css" := by
  rw [subset_and_convert_eq] at h
  cases hc : collectJobs dest_dir (family.getD sourceStem) ok
      (completion (prepareTasks coverage (planRanges coverage split_strategy))) with
  | error e =>
    rw [hc] at h
    exact absurd h (by simp)
  | ok pair =>
    obtain ⟨created, recs⟩ := pair
    rw [hc] at h
    have hout : out = (created ++
        [(_emit_css dest_dir (family.getD sourceStem) weight style recs).path],
        _emit_css dest_dir (family.getD sourceStem) weight style recs) :=
      (Except.ok.injEq _ _ ▸ h).symm
    subst hout
    refine ⟨by simp, ?_, rfl⟩
    simp [List.getLast?_concat]

/-- C10 witness: the empty-coverage `none`-strategy call, evaluated
concretely. -/
theorem C10_css_path_last_witness :
    (["d/f.css"] : List String) ≠ []
    ∧ (["d/f.css"] : List String).getLast? = some (⟨"d/f.css", []⟩ : CssOutput).path
    ∧ (⟨"d/f.css", []⟩ : CssOutput).path =
        "d" ++ "/" ++ replaceSpaceDash ((none : Option String).getD "f") ++ ".css" :=
  C10_css_path_last "d" ∅ none "f" "400" "normal" "none" id (fun _ => true)
    (["d/f.css"], ⟨"d/f.css", []⟩) (by rfl)

/-- Evaluates `_chunk_256` once the sorted block-start list is supplied. -/
theorem chunk_256_eval (coverage : Finset Nat) (bs : List Nat) (hs : bs.Sorted (· < ·))
    (h : bs.toFinset = coverage.image fun cp => cp / 256 * 256) :
    _chunk_256 coverage =
      bs.map fun b => ⟨b, b + 255, "u" ++ hex4 b ++ "-" ++ hex4 (b + 255)⟩ := by
  unfold _chunk_256
  rw [sort_eq_of _ bs hs h]

theorem c1_vis : (_split_visible_sets {0x41, 0x7F}).1 = {0x41} := by decide

theorem c1_inv : (_split_visible_sets {0x41, 0x7F}).2 = {0x7F} := by decide

theorem c1_plan : planRanges {0x41, 0x7F} "by-256" =
    [⟨0, 255, "vis-u0000-00FF"⟩, ⟨0, 255, "invis-u0000-00FF"⟩] := by
  unfold planRanges
  rw [if_neg (by decide), if_pos rfl]
  unfold _by256_with_visibility
  rw [c1_vis, c1_inv, chunk_256_eval {0x41} [0] (by decide) (by decide),
    chunk_256_eval {0x7F} [0] (by decide) (by decide)]
  rfl

/-- C1: on coverage with visible 0x41 and invisible 0x7F in one 256-block,
the `by-256` plan's two jobs both receive the full coverage: the vis job is
not restricted to 0x41 nor the invis job to 0x7F, because task preparation
intersects every range with the whole coverage (font.py line 313), and both
ranges span the same 0x00-0xFF window.  The union of the jobs' codepoints
still equals the coverage, but the jobs are not disjoint. -/
theorem C1_by256_overlapping_jobs :
    prepareTasks {0x41, 0x7F} (planRanges {0x41, 0x7F} "by-256") =
      [(⟨0, 255, "vis-u0000-00FF"⟩, {0x41, 0x7F}),
       (⟨0, 255, "invis-u0000-00FF"⟩, {0x41, 0x7F})] := by
  rw [c1_plan]
  decide

theorem c2_vis : (_split_visible_sets {0x41, 0x141, 0x241}).1 = {0x41, 0x141, 0x241} := by
  decide

theorem c2_inv : (_split_visible_sets {0x41, 0x141, 0x241}).2 = ∅ := by decide

theorem c2_plan : planRanges {0x41, 0x141, 0x241} "by-256" =
    [⟨0, 255, "vis-u0000-00FF"⟩, ⟨256, 511, "vis-u0100-01FF"⟩,
     ⟨512, 767, "vis-u0200-02FF"⟩] := by
  unfold planRanges
  rw [if_neg (by decide), if_pos rfl]
  unfold _by256_with_visibility
  rw [c2_vis, c2_inv,
    chunk_256_eval {0x41, 0x141, 0x241} [0, 256, 512] (by decide) (by decide),
    chunk_256_empty]
  rfl

theorem c2_tasks :
    prepareTasks {0x41, 0x141, 0x241} (planRanges {0x41, 0x141, 0x241} "by-256") =
      [(⟨0, 255, "vis-u0000-00FF"⟩, {0x41}),
       (⟨256, 511, "vis-u0100-01FF"⟩, {0x141}),
       (⟨512, 767, "vis-u0200-02FF"⟩, {0x241})] := by
  rw [c2_plan]
  decide

/-- C2 counterexample: a 3-range plan where job 2's encode step fails while
jobs 1 and 3 succeed: `subset_and_convert` raises job 2's failure — no CSS
is emitted at all, instead of a CSS with the two successful rules. -/
theorem C2_counterexample :
    (prepareTasks {0x41, 0x141, 0x241} (planRanges {0x41, 0x141, 0x241} "by-256")).length = 3
    ∧ subset_and_convert "d" {0x41, 0x141, 0x241} (some "F") "s" "400" "normal" "by-256" id
        (fun ur => decide (ur.label ≠ "vis-u0100-01FF")) =
      .error ⟨256, 511, "vis-u0100-01FF"⟩ := by
  constructor
  · rw [c2_tasks]
    rfl
  · rw [subset_and_convert_eq, c2_tasks]
    rfl

/-- C2 corrected: if any subset job's external subset/encode step fails, the
whole `subset_and_convert` call raises that failure: no CSS file is emitted
and no created-path list is returned, regardless of how many sibling jobs
succeed. -/
theorem C2_failed_job_aborts_call (dest_dir : String) (coverage : Finset Nat)
    (family : Option String) (sourceStem weight style split_strategy : String)
    (completion : List (UnicodeRange × Finset Nat) → List (UnicodeRange × Finset Nat))
    (ok : UnicodeRange → Bool)
    (h : ∃ t ∈ completion (prepareTasks coverage (planRanges coverage split_strategy)),
      ok t.1 = false) :
    ∃ e, subset_and_convert dest_dir coverage family sourceStem weight style
        split_strategy completion ok = .error e := by
  obtain ⟨e, he⟩ := collectJobs_fail dest_dir (family.getD sourceStem) ok _ h
  exact ⟨e, by rw [subset_and_convert_eq, he]⟩

/-- C2 witness: the 3-range plan with job 2 failing, via the corrected
theorem. -/
theorem C2_failed_job_aborts_call_witness :
    ∃ e, subset_and_convert "d" {0x41, 0x141, 0x241} (some "F") "s" "400" "normal"
        "by-256" id (fun ur => decide (ur.label ≠ "vis-u0100-01FF")) = .error e :=
  C2_failed_job_aborts_call "d" {0x41, 0x141, 0x241} (some "F") "s" "400" "normal"
    "by-256" id (fun ur => decide (ur.label ≠ "vis-u0100-01FF"))
    ⟨(⟨256, 511, "vis-u0100-01FF"⟩, {0x141}), by rw [id_eq, c2_tasks]; decide, by decide⟩

theorem c3_vis : (_split_visible_sets {0x41, 0x141}).1 = {0x41, 0x141} := by decide

theorem c3_inv : (_split_visible_sets {0x41, 0x141}).2 = ∅ := by decide

theorem c3_plan : planRanges {0x41, 0x141} "by-256" =
    [⟨0, 255, "vis-u0000-00FF"⟩, ⟨256, 511, "vis-u0100-01FF"⟩] := by
  unfold planRanges
  rw [if_neg (by decide), if_pos rfl]
  unfold _by256_with_visibility
  rw [c3_vis, c3_inv,
    chunk_256_eval {0x41, 0x141} [0, 256] (by decide) (by decide), chunk_256_empty]
  rfl

theorem c3_tasks :
    prepareTasks {0x41, 0x141} (planRanges {0x41, 0x141} "by-256") =
      [(⟨0, 255, "vis-u0000-00FF"⟩, {0x41}), (⟨256, 511, "vis-u0100-01FF"⟩, {0x141})] := by
  rw [c3_plan]
  decide

/-- C3 counterexample: when the two jobs of a two-range plan complete in
reverse order (all succeeding), the CSS rules are emitted in completion
order, which is not the plan order. -/
theorem C3_counterexample :
    ∃ created css,
      subset_and_convert "d" {0x41, 0x141} (some "F") "s" "400" "normal" "by-256"
        List.reverse (fun _ => true) = .ok (created, css)
      ∧ css.rules ≠
          (prepareTasks {0x41, 0x141} (planRanges {0x41, 0x141} "by-256")).map
            (fun t => cssRule "F" "400" "normal" (outBaseName "F" t.1) t.1) := by
  refine ⟨["d/F-vis-u0100-01FF.woff2", "d/F-vis-u0100-01FF.woff",
           "d/F-vis-u0000-00FF.woff2", "d/F-vis-u0000-00FF.woff", "d/F.css"],
    ⟨"d/F.css",
     [cssRule "F" "400" "normal" "F-vis-u0100-01FF" ⟨256, 511, "vis-u0100-01FF"⟩,
      cssRule "F" "400" "normal" "F-vis-u0000-00FF" ⟨0, 255, "vis-u0000-00FF"⟩]⟩, ?_, ?_⟩
  · rw [subset_and_convert_eq, c3_tasks]
    rfl
  · rw [c3_tasks]
    decide

/-- C3 corrected: for every completion permutation of the plan's tasks in
which all jobs succeed, the CSS records reaching the emitter are the tasks'
records in completion order — the same multiset as the plan's records (so a
rule per task, none lost), but ordered by job completion, not re-sorted to
plan order. -/
theorem C3_css_rules_completion_order (dest_dir : String) (coverage : Finset Nat)
    (family : Option String) (sourceStem weight style split_strategy : String)
    (completion : List (UnicodeRange × Finset Nat) → List (UnicodeRange × Finset Nat))
    (ok : UnicodeRange → Bool)
    (hperm : (completion (prepareTasks coverage (planRanges coverage split_strategy))).Perm
      (prepareTasks coverage (planRanges coverage split_strategy)))
    (hok : ∀ t ∈ completion (prepareTasks coverage (planRanges coverage split_strategy)),
      ok t.1 = true) :
    ∃ created css,
      subset_and_convert dest_dir coverage family sourceStem weight style
        split_strategy completion ok = .ok (created, css)
      ∧ css.rules =
          (completion (prepareTasks coverage (planRanges coverage split_strategy))).map
            (fun t => cssRule (family.getD sourceStem) weight style
              (outBaseName (family.getD sourceStem) t.1) t.1)
      ∧ css.rules.Perm
          ((prepareTasks coverage (planRanges coverage split_strategy)).map
            (fun t => cssRule (family.getD sourceStem) weight style
              (outBaseName (family.getD sourceStem) t.1) t.1)) := by
  obtain ⟨created, hc⟩ :=
    collectJobs_all_ok dest_dir (family.getD sourceStem) ok _ hok
  have hrules : (_emit_css dest_dir (family.getD sourceStem) weight style
      ((completion (prepareTasks coverage (planRanges coverage split_strategy))).map
        fun t => (outBaseName (family.getD sourceStem) t.1, t.1))).rules =
      (completion (prepareTasks coverage (planRanges coverage split_strategy))).map
        (fun t => cssRule (family.getD sourceStem) weight style
          (outBaseName (family.getD sourceStem) t.1) t.1) := by
    unfold _emit_css
    rw [List.map_map]
    rfl
  refine ⟨created ++ [(_emit_css dest_dir (family.getD sourceStem) weight style
      ((completion (prepareTasks coverage (planRanges coverage split_strategy))).map
        fun t => (outBaseName (family.getD sourceStem) t.1, t.1))).path], _, ?_, hrules, ?_⟩
  · rw [subset_and_convert_eq, hc]
  · rw [hrules]
    exact hperm.map _

/-- C3 witness: the corrected theorem at the concrete two-range plan with
reversed completion order. -/
theorem C3_css_rules_completion_order_witness :
    ∃ created css,
      subset_and_convert "d" {0x41, 0x141} (some "F") "s" "400" "normal" "by-256"
        List.reverse (fun _ => true) = .ok (created, css)
      ∧ css.rules =
          (List.reverse (prepareTasks {0x41, 0x141} (planRanges {0x41, 0x141} "by-256"))).map
            (fun t => cssRule ((some "F").getD "s") "400" "normal"
              (outBaseName ((some "F").getD "s") t.1) t.1)
      ∧ css.rules.Perm
          ((prepareTasks {0x41, 0x141} (planRanges {0x41, 0x141} "by-256")).map
            (fun t => cssRule ((some "F").getD "s") "400" "normal"
              (outBaseName ((some "F").getD "s") t.1) t.1)) :=
  C3_css_rules_completion_order "d" {0x41, 0x141} (some "F") "s" "400" "normal" "by-256"
    List.reverse (fun _ => true) (List.reverse_perm _) (fun _ _ => rfl)

theorem by256_empty : _by256_with_visibility ∅ = [] := by
  unfold _by256_with_visibility
  rw [show (_split_visible_sets (∅ : Finset Nat)).1 = ∅ from by decide,
    show (_split_visible_sets (∅ : Finset Nat)).2 = ∅ from by decide, chunk_256_empty]
  rfl

theorem auto_empty : _auto_ranges ∅ = [] := by
  unfold _auto_ranges
  rw [show autoLatinSet (∅ : Finset Nat) = ∅ from by decide,
    show autoHanSet (∅ : Finset Nat) = ∅ from by decide,
    show autoRestSet (∅ : Finset Nat) = ∅ from by decide,
    show (_split_visible_sets (∅ : Finset Nat)).2 = ∅ from by decide, chunk_256_empty]
  rw [show _partition_limited_chunks (∅ : Finset Nat) "latin" = [] from rfl,
    show _partition_han_chunks (∅ : Finset Nat) = [] from rfl]
  rfl

/-- C8 counterexample: for the `by-256` strategy an empty coverage plans no
range at all, not a single trivial range. -/
theorem C8_counterexample :
    planRanges (∅ : Finset Nat) "by-256" = []
    ∧ (planRanges (∅ : Finset Nat) "by-256").length ≠ 1 := by
  have h : planRanges (∅ : Finset Nat) "by-256" = [] := by
    unfold planRanges
    rw [if_neg (by decide), if_pos rfl, by256_empty]
  exact ⟨h, by rw [h]; decide⟩

/-- C8 corrected: an empty coverage never makes planning or the pipeline
fail: the `none` strategy plans the single trivial range 0x0000-0xFFFF,
while `by-256` and `auto` plan no range at all; in every case zero subset
jobs are created and the call succeeds, emitting an empty CSS file. -/
theorem C8_empty_coverage (strategy dest_dir weight style sourceStem : String)
    (family : Option String) (ok : UnicodeRange → Bool) :
    prepareTasks ∅ (planRanges ∅ strategy) = []
    ∧ planRanges (∅ : Finset Nat) "none" = [⟨0, 0xFFFF, "full"⟩]
    ∧ planRanges (∅ : Finset Nat) "by-256" = []
    ∧ planRanges (∅ : Finset Nat) "auto" = []
    ∧ subset_and_convert dest_dir ∅ family sourceStem weight style strategy id ok =
        .ok ([dest_dir ++ "/" ++ replaceSpaceDash (family.getD sourceStem) ++ ".css"],
             ⟨dest_dir ++ "/" ++ replaceSpaceDash (family.getD sourceStem) ++ ".css", []⟩) := by
  refine ⟨prepareTasks_empty _, ?_, ?_, ?_, ?_⟩
  · unfold planRanges
    rw [if_pos rfl, dif_neg (by simp), dif_neg (by simp)]
  · unfold planRanges
    rw [if_neg (by decide), if_pos rfl, by256_empty]
  · unfold planRanges
    rw [if_neg (by decide), if_neg (by decide), auto_empty]
  · rw [subset_and_convert_eq, prepareTasks_empty]
    rfl
